import Mathlib

/-!  Formalisation of the directive-aware merge engine of the envvars CLI
     (`sources/env_processor.go`): the `.env` file parser, `${NAME}` reference
     resolution, quote stripping, and the remove / filter / filter-unless /
     require directive pipeline.  File I/O is replaced by passing the file's
     content as a list of lines; strings are modelled by Lean `String`
     (the repository only manipulates ASCII data, for which Go's
     Unicode-aware case folding and whitespace trimming agree with the
     ASCII versions used here).  -/

namespace EnvVars

/-- The single-quote character (U+0027). -/
def squote : Char := Char.ofNat 39

/-- The double-quote character (U+0022). -/
def dquote : Char := Char.ofNat 34

/-- The single-quote character as a one-character string. -/
def squoteStr : String := ⟨[squote]⟩

/-- `strings.HasPrefix` on character lists: `listStarts pre l` holds when
    `pre` is an initial segment of `l`. -/
def listStarts : List Char → List Char → Bool
  | [], _ => true
  | _ :: _, [] => false
  | p :: ps, c :: cs => p == c && listStarts ps cs

/-- Go `strings.HasPrefix s pre`. -/
def strStarts (s pre : String) : Bool := listStarts pre.data s.data

/-- Go `strings.HasSuffix s suf`. -/
def strEnds (s suf : String) : Bool := listStarts suf.data.reverse s.data.reverse

/-- Go `strings.TrimSpace` (ASCII whitespace). -/
def trimSpace (s : String) : String :=
  ⟨((s.data.dropWhile Char.isWhitespace).reverse.dropWhile Char.isWhitespace).reverse⟩

/-- Helper for `strings.Fields`: `cur` holds the current token, reversed. -/
def fieldsGo (cur : List Char) : List Char → List (List Char)
  | [] => if cur.isEmpty then [] else [cur.reverse]
  | c :: rest =>
    if c.isWhitespace then
      if cur.isEmpty then fieldsGo [] rest else cur.reverse :: fieldsGo [] rest
    else fieldsGo (c :: cur) rest

/-- Go `strings.Fields`: split around runs of whitespace, dropping empties. -/
def fields (s : String) : List String := (fieldsGo [] s.data).map String.mk

/-- Go `strings.ToLower` (ASCII). -/
def lowerStr (s : String) : String := ⟨s.data.map Char.toLower⟩

/-- Go `strings.EqualFold` (ASCII case folding). -/
def eqFold (a b : String) : Bool := lowerStr a == lowerStr b

/-- A Go `map[string]string`, modelled as an association list with unique
    keys; all operations below are insensitive to entry order, matching the
    unordered Go map. -/
abbrev KVMap := List (String × String)

/-- Go map lookup `m[k]` (with the `ok` flag as `Option`). -/
def mapGet : KVMap → String → Option String
  | [], _ => none
  | (k, v) :: rest, key => if k == key then some v else mapGet rest key

/-- Go map assignment `m[k] = v`: overwrite the existing entry or append. -/
def mapSet : KVMap → String → String → KVMap
  | [], key, val => [(key, val)]
  | (k, v) :: rest, key, val =>
    if k == key then (key, val) :: rest else (k, v) :: mapSet rest key val

/-- `Directive` struct of `env_processor.go`. -/
structure Directive where
  name : String
  arguments : List String
  line : Nat
deriving Repr, DecidableEq

/-- `EnvVar` struct of `env_processor.go`. -/
structure EnvVar where
  key : String
  value : String
  file : String
deriving Repr, DecidableEq

/-- `EnvFile` struct of `env_processor.go`; `vars` is the Go field
    `Variables` (renamed because `variables` is reserved in Lean). -/
structure EnvFile where
  filename : String
  vars : List EnvVar
  directives : List Directive
deriving Repr, DecidableEq

/-- Go `strings.TrimPrefix line "#"`: drop one leading `#` when present. -/
def trimOneHash (line : String) : String :=
  match line.data with
  | c :: rest => if c == '#' then ⟨rest⟩ else line
  | [] => line

/-- `parseDirective` of `env_processor.go`: strip the `#`, trim, split on
    whitespace; the first token is the name, the rest the arguments. -/
def parseDirective (line : String) (lineNumber : Nat) : Except String Directive :=
  let directiveText := trimSpace (trimOneHash line)
  match fields directiveText with
  | [] => .error ("empty directive at line " ++ toString lineNumber)
  | name :: args => .ok ⟨name, args, lineNumber⟩

/-- First character class of the key regex `^[A-Za-z_][A-Za-z0-9_]*$`. -/
def isKeyStartChar (c : Char) : Bool := c.isAlpha || c == '_'

/-- Later character class of the key regex `^[A-Za-z_][A-Za-z0-9_]*$`. -/
def isKeyChar (c : Char) : Bool := c.isAlpha || c.isDigit || c == '_'

/-- `isValidKey` of `env_processor.go`: full match of the anchored regex
    `^[A-Za-z_][A-Za-z0-9_]*$`. -/
def isValidKey (key : String) : Bool :=
  match key.data with
  | [] => false
  | c :: rest => isKeyStartChar c && rest.all isKeyChar

/-- Go `strings.Trim value cutset` for a one-character cutset: remove ALL
    leading and trailing occurrences of `c`. -/
def trimCharBoth (c : Char) (l : List Char) : List Char :=
  ((l.dropWhile (fun d => d == c)).reverse.dropWhile (fun d => d == c)).reverse

/-- Go `strings.ReplaceAll value "\\q" "q"`: left-to-right, non-overlapping
    replacement of a backslash-escaped quote by the bare quote. -/
def replaceEscaped (q : Char) : List Char → List Char
  | [] => []
  | [c] => [c]
  | a :: b :: rest =>
    if a == '\\' && b == q then q :: replaceEscaped q rest
    else a :: replaceEscaped q (b :: rest)

/-- `unquoteValue` of `env_processor.go`: trim whitespace; if the result
    starts and ends with a single quote, `strings.Trim` all single quotes
    from both ends and unescape `\'`; else the same for double quotes;
    otherwise return the trimmed value. -/
def unquoteValue (value : String) : String :=
  if strStarts (trimSpace value) squoteStr && strEnds (trimSpace value) squoteStr then
    ⟨replaceEscaped squote (trimCharBoth squote (trimSpace value).data)⟩
  else if strStarts (trimSpace value) "\"" && strEnds (trimSpace value) "\"" then
    ⟨replaceEscaped dquote (trimCharBoth dquote (trimSpace value).data)⟩
  else trimSpace value

/-- Reference-span detection for `resolveVariableReferences`: when the text
    after a `$` starts with `{`, has a later `}`, and the text between is
    non-empty (the regex group `[^}]+`), return that name together with the
    text after the closing `}`; otherwise `none`. -/
def refSpan (rest : List Char) : Option (List Char × List Char) :=
  match rest with
  | [] => none
  | c :: rest2 =>
    if c == '\x7b' then
      let name := rest2.takeWhile (fun d => d != '\x7d')
      match rest2.dropWhile (fun d => d != '\x7d') with
      | [] => none
      | c3 :: rest3 => if c3 == '\x7d' && !name.isEmpty then some (name, rest3) else none
    else none

/-- Fuel-indexed scanner for `resolveVariableReferences`: the semantics of
    one `regexp.ReplaceAllStringFunc` pass with the pattern
    `\$\{([^}]+)\}` — at each position, a span `${NAME}` (see `refSpan`) is
    replaced by `table[NAME]` when present and kept literally otherwise,
    and scanning resumes after the span; substituted text is never
    re-scanned.  The fuel always exceeds the length of the remaining input,
    so the `0` case is unreachable from `resolveVariableReferences`. -/
def resolveGo (tbl : KVMap) : Nat → List Char → List Char
  | 0, s => s
  | _ + 1, [] => []
  | f + 1, c :: rest =>
    if c == '$' then
      match refSpan rest with
      | some (name, rest3) =>
        (match mapGet tbl ⟨name⟩ with
          | some v => v.data
          | none => '$' :: '\x7b' :: name ++ ['\x7d']) ++ resolveGo tbl f rest3
      | none => c :: resolveGo tbl f rest
    else c :: resolveGo tbl f rest

/-- `resolveVariableReferences` of `env_processor.go`. -/
def resolveVariableReferences (value : String) (tbl : KVMap) : String :=
  ⟨resolveGo tbl (value.data.length + 1) value.data⟩

/-- Fuel-indexed matcher behind `matchesWildcardPattern`.  The Go function
    builds the anchored regex text `^p$` with every `*` of the (already
    lowercased) pattern replaced by `.*`, hands it to
    `regexp.MatchString`, and falls back to exact equality when that text
    fails to compile.  This model implements that anchored translation
    exactly for patterns built from `*`, `.` and characters with no regex
    meaning: a pattern `*` stands for `.*` (any run of characters other
    than a newline), a pattern `.` matches any single character other than
    a newline, and any other modelled character matches itself.  Patterns
    containing the remaining RE2 metacharacters (`+ ? ( ) [ ] \x7b \x7d ^
    $ | \`, backslash escapes, character classes) keep their regex meaning
    in Go — including the compile-failure fallback — and are NOT modelled:
    on such patterns this function treats those characters as literals and
    never falls back.  Every pattern this file evaluates concretely lies
    in the modelled fragment; statements quantifying over arbitrary
    patterns use `matchesWildcardPattern` only parametrically, never
    through its internals.  The fuel always exceeds
    `pattern.length + key.length`, so the `0` case is unreachable from
    `matchesWildcardPattern`. -/
def globGo : Nat → List Char → List Char → Bool
  | 0, _, _ => false
  | _ + 1, [], [] => true
  | _ + 1, [], _ :: _ => false
  | f + 1, '*' :: ps, s =>
    globGo f ps s ||
      (match s with
        | [] => false
        | c :: s2 => c != '\n' && globGo f ('*' :: ps) s2)
  | _ + 1, _ :: _, [] => false
  | f + 1, p :: ps, c :: cs =>
    (if p == '.' then c != '\n' else p == c) && globGo f ps cs

/-- `matchesWildcardPattern` of `env_processor.go` (see `globGo` for the
    modelled fragment of the regex translation). -/
def matchesWildcardPattern (key pattern : String) : Bool :=
  globGo (pattern.data.length + key.data.length + 1) pattern.data key.data

/-- `matchesPattern` of `env_processor.go`: lowercase both sides; wildcard
    matching when the (lowercased) pattern contains `*`, exact equality
    otherwise. -/
def matchesPattern (key pattern : String) : Bool :=
  if (lowerStr pattern).data.contains '*' then
    matchesWildcardPattern (lowerStr key) (lowerStr pattern)
  else lowerStr key == lowerStr pattern

/-- Argument loop of `applyRemoveDirective`: for each argument in order,
    delete every key that case-insensitively equals it. -/
def removeArgsLoop (kvs : KVMap) : List String → KVMap
  | [] => kvs
  | a :: rest => removeArgsLoop (kvs.filter (fun e => !eqFold e.1 a)) rest

/-- `applyRemoveDirective` of `env_processor.go`. -/
def applyRemoveDirective (kvs : KVMap) (d : Directive) : KVMap :=
  removeArgsLoop kvs d.arguments

/-- `applyRemoveDirectives` of `env_processor.go`: apply every directive
    whose lowercased name is `remove`, in file order. -/
def applyRemoveDirectives (kvs : KVMap) : List Directive → KVMap
  | [] => kvs
  | d :: rest =>
    applyRemoveDirectives
      (if lowerStr d.name == "remove" then applyRemoveDirective kvs d else kvs) rest

/-- Argument loop of `applyRequireDirective`: fail on the first argument
    that is not present in the mapping as an exact, case-sensitive key. -/
def requireArgsCheck (kvs : KVMap) : List String → Except String Unit
  | [] => .ok ()
  | a :: rest =>
    if (mapGet kvs a).isSome then requireArgsCheck kvs rest
    else .error ("required environment variable " ++ squoteStr ++ a ++ squoteStr ++ " not found")

/-- `applyRequireDirective` of `env_processor.go`. -/
def applyRequireDirective (kvs : KVMap) (d : Directive) : Except String Unit :=
  requireArgsCheck kvs d.arguments

/-- `applyRequireDirectives` of `env_processor.go`: apply every directive
    whose lowercased name is `require`, stopping at the first error. -/
def applyRequireDirectives (kvs : KVMap) : List Directive → Except String Unit
  | [] => .ok ()
  | d :: rest =>
    if lowerStr d.name == "require" then
      match applyRequireDirective kvs d with
      | .error e => .error e
      | .ok _ => applyRequireDirectives kvs rest
    else applyRequireDirectives kvs rest

/-- Argument loop of `applyFilterDirective`: for each argument pattern in
    order, delete every key matching it. -/
def filterArgsLoop (kvs : KVMap) : List String → KVMap
  | [] => kvs
  | a :: rest => filterArgsLoop (kvs.filter (fun e => !matchesPattern e.1 a)) rest

/-- `applyFilterDirective` of `env_processor.go` (debug printing dropped). -/
def applyFilterDirective (kvs : KVMap) (d : Directive) : KVMap :=
  filterArgsLoop kvs d.arguments

/-- `applyFilterDirectives` of `env_processor.go`: apply every directive
    whose lowercased name is `filter`, in file order. -/
def applyFilterDirectives (kvs : KVMap) : List Directive → KVMap
  | [] => kvs
  | d :: rest =>
    applyFilterDirectives
      (if lowerStr d.name == "filter" then applyFilterDirective kvs d else kvs) rest

/-- Pattern-collection loop of `applyFilterUnlessDirectives`: the union, in
    file order, of the arguments of all `filter-unless` directives. -/
def collectFilterUnlessPatterns : List Directive → List String
  | [] => []
  | d :: rest =>
    (if lowerStr d.name == "filter-unless" then d.arguments else []) ++
      collectFilterUnlessPatterns rest

/-- `applyFilterUnlessDirectives` of `env_processor.go`: collect all
    patterns; when none, pass the mapping through; otherwise compute the
    keys to keep (those matching at least one pattern) and delete the rest
    (debug printing dropped). -/
def applyFilterUnlessDirectives (kvs : KVMap) (directives : List Directive) : KVMap :=
  let allPatterns := collectFilterUnlessPatterns directives
  if allPatterns.isEmpty then kvs
  else
    let keysToKeep :=
      (kvs.map Prod.fst).filter (fun k => allPatterns.any (fun p => matchesPattern k p))
    kvs.filter (fun e => keysToKeep.contains e.1)

/-- Directive-line test shared by the two passes of `parseEnvFile`: the
    (already trimmed) line starts with `#` but not `# `, and the text after
    the `#`, trimmed, is non-empty and does not start with a space. -/
def isDirectiveLine (line : String) : Bool :=
  strStarts line "#" && !strStarts line "# " &&
    (let dt := trimSpace (trimOneHash line)
     !(dt == "") && !strStarts dt " ")

/-- First pass of `parseEnvFile` (lines 169–213 of `env_processor.go`):
    collect the directives in file order and build the same-file reference
    table from every assignment line whose key is non-empty and valid,
    storing the unquoted (but unresolved) value; `n` counts the lines
    already consumed. -/
def parsePassOne (vars : KVMap) (dirs : List Directive) :
    List String → Nat → Except String (KVMap × List Directive)
  | [], _ => .ok (vars, dirs)
  | raw :: rest, n =>
    let lineNumber := n + 1
    let line := trimSpace raw
    if line == "" then parsePassOne vars dirs rest lineNumber
    else if isDirectiveLine line then
      match parseDirective line lineNumber with
      | .error e =>
        .error ("failed to parse directive at line " ++ toString lineNumber ++ ": " ++ e)
      | .ok d => parsePassOne vars (dirs ++ [d]) rest lineNumber
    else if strStarts line "#" then parsePassOne vars dirs rest lineNumber
    else if line.data.contains '=' then
      let key := trimSpace ⟨line.data.takeWhile (fun c => c != '=')⟩
      let value := trimSpace ⟨(line.data.dropWhile (fun c => c != '=')).drop 1⟩
      if !(key == "") && isValidKey key then
        parsePassOne (mapSet vars key (unquoteValue value)) dirs rest lineNumber
      else parsePassOne vars dirs rest lineNumber
    else parsePassOne vars dirs rest lineNumber

/-- Second pass of `parseEnvFile` (lines 220–264 of `env_processor.go`):
    re-scan the same lines and emit, in file order, an `EnvVar` for every
    assignment line with a non-empty valid key, with the value unquoted and
    resolved against the pass-one table; directive and comment lines are
    skipped. -/
def parsePassTwo (tbl : KVMap) (filePath : String) : List String → List EnvVar
  | [] => []
  | raw :: rest =>
    let line := trimSpace raw
    if line == "" then parsePassTwo tbl filePath rest
    else if isDirectiveLine line then parsePassTwo tbl filePath rest
    else if strStarts line "#" then parsePassTwo tbl filePath rest
    else if line.data.contains '=' then
      let key := trimSpace ⟨line.data.takeWhile (fun c => c != '=')⟩
      let value := trimSpace ⟨(line.data.dropWhile (fun c => c != '=')).drop 1⟩
      if !(key == "") && isValidKey key then
        ⟨key, resolveVariableReferences (unquoteValue value) tbl, filePath⟩ ::
          parsePassTwo tbl filePath rest
      else parsePassTwo tbl filePath rest
    else parsePassTwo tbl filePath rest

/-- `parseEnvFile` of `env_processor.go`, with the opened file replaced by
    its list of lines. -/
def parseEnvFile (filePath : String) (lines : List String) : Except String EnvFile :=
  match parsePassOne [] [] lines 0 with
  | .error e => .error e
  | .ok (tbl, dirs) => .ok ⟨filePath, parsePassTwo tbl filePath lines, dirs⟩

/-- `ProcessFileWithMerge` of `env_processor.go` (the spec's `mergeFile`):
    parse the file, apply remove directives to the existing mapping,
    overlay the file's variables (file values winning), apply filter, then
    filter-unless, then require, returning the merged mapping or the first
    error. -/
def ProcessFileWithMerge (existingKVs : KVMap) (filePath : String)
    (lines : List String) : Except String KVMap :=
  match parseEnvFile filePath lines with
  | .error e => .error ("failed to parse file " ++ squoteStr ++ filePath ++ squoteStr ++ ": " ++ e)
  | .ok envFile =>
    let processedKVs := applyRemoveDirectives existingKVs envFile.directives
    let mergedVars := envFile.vars.foldl (fun m v => mapSet m v.key v.value) processedKVs
    let afterFilter := applyFilterDirectives mergedVars envFile.directives
    let afterFilterUnless := applyFilterUnlessDirectives afterFilter envFile.directives
    match applyRequireDirectives afterFilterUnless envFile.directives with
    | .error e => .error e
    | .ok _ => .ok afterFilterUnless

/-- Modelled from the spec (§4.5 require): the first argument, in
    directive-then-argument order, of a `require` directive that is not
    present in the mapping as an exact, case-sensitive key. -/
def firstMissingRequiredKey (kvs : KVMap) : List Directive → Option String
  | [] => none
  | d :: rest =>
    if lowerStr d.name == "require" then
      match d.arguments.find? (fun a => (mapGet kvs a).isNone) with
      | some a => some a
      | none => firstMissingRequiredKey kvs rest
    else firstMissingRequiredKey kvs rest

/-- The fixed error text of the require stage. -/
def requireErrorText (a : String) : String :=
  "required environment variable " ++ squoteStr ++ a ++ squoteStr ++ " not found"

/-- The mapping obtained after the first four stages of the merge pipeline
    (remove on the existing mapping, overlay of the file's variables,
    filter, filter-unless), before the require check. -/
def preRequireMap (existingKVs : KVMap) (envFile : EnvFile) : KVMap :=
  applyFilterUnlessDirectives
    (applyFilterDirectives
      (envFile.vars.foldl (fun m v => mapSet m v.key v.value)
        (applyRemoveDirectives existingKVs envFile.directives))
      envFile.directives)
    envFile.directives

/-- Modelled from the spec (§4.6 Merge Orchestrator): apply-remove on the
    prior mapping, overlay of the file's parsed variables, apply-filter,
    apply-filter-unless, apply-require, in that fixed order, returning the
    mapping or the require error. -/
def stagedMerge (existing : KVMap) (envFile : EnvFile) : Except String KVMap :=
  let afterRemove := applyRemoveDirectives existing envFile.directives
  let merged := envFile.vars.foldl (fun m v => mapSet m v.key v.value) afterRemove
  let afterFilter := applyFilterDirectives merged envFile.directives
  let afterFilterUnless := applyFilterUnlessDirectives afterFilter envFile.directives
  match applyRequireDirectives afterFilterUnless envFile.directives with
  | .error e => .error e
  | .ok _ => .ok afterFilterUnless

/-! ### Helper lemmas about the mapping operations -/

theorem mem_mapSet (m : KVMap) (key val : String) (x : String × String)
    (hx : x ∈ mapSet m key val) : x = (key, val) ∨ x ∈ m := by
  induction m with
  | nil => simpa [mapSet] using hx
  | cons e rest ih =>
    obtain ⟨k, v⟩ := e
    simp only [mapSet] at hx
    by_cases h : k == key
    · rw [if_pos h] at hx
      rcases List.mem_cons.mp hx with h1 | h1
      · exact Or.inl h1
      · exact Or.inr (List.mem_cons_of_mem _ h1)
    · rw [if_neg h] at hx
      rcases List.mem_cons.mp hx with h1 | h1
      · exact Or.inr (h1 ▸ List.mem_cons_self _ _)
      · rcases ih h1 with h2 | h2
        · exact Or.inl h2
        · exact Or.inr (List.mem_cons_of_mem _ h2)

theorem mem_foldl_mapSet (vars : List EnvVar) :
    ∀ (m : KVMap) (x : String × String),
      x ∈ vars.foldl (fun acc v => mapSet acc v.key v.value) m →
      (∃ v ∈ vars, x.1 = v.key) ∨ x ∈ m := by
  induction vars with
  | nil => intro m x hx; exact Or.inr (by simpa using hx)
  | cons v rest ih =>
    intro m x hx
    rw [List.foldl_cons] at hx
    rcases ih _ _ hx with h | h
    · obtain ⟨w, hw, he⟩ := h
      exact Or.inl ⟨w, List.mem_cons_of_mem _ hw, he⟩
    · rcases mem_mapSet _ _ _ _ h with h2 | h2
      · exact Or.inl ⟨v, List.mem_cons_self _ _, by rw [h2]⟩
      · exact Or.inr h2

theorem mem_removeArgsLoop (args : List String) :
    ∀ (kvs : KVMap) (x : String × String),
      x ∈ removeArgsLoop kvs args ↔
        x ∈ kvs ∧ ∀ a ∈ args, eqFold x.1 a = false := by
  induction args with
  | nil => simp [removeArgsLoop]
  | cons a rest ih =>
    intro kvs x
    rw [removeArgsLoop, ih]
    simp only [List.mem_filter, List.forall_mem_cons, Bool.not_eq_true']
    tauto

theorem mem_applyRemoveDirectives (dirs : List Directive) :
    ∀ (kvs : KVMap) (x : String × String),
      x ∈ applyRemoveDirectives kvs dirs ↔
        x ∈ kvs ∧
          ∀ d ∈ dirs, lowerStr d.name = "remove" →
            ∀ a ∈ d.arguments, eqFold x.1 a = false := by
  induction dirs with
  | nil => simp [applyRemoveDirectives]
  | cons d rest ih =>
    intro kvs x
    rw [applyRemoveDirectives, ih]
    by_cases h : lowerStr d.name = "remove"
    · rw [if_pos (show (lowerStr d.name == "remove") = true from beq_iff_eq.mpr h)]
      rw [applyRemoveDirective, mem_removeArgsLoop]
      simp only [List.forall_mem_cons]
      constructor
      · rintro ⟨⟨h1, h2⟩, h3⟩
        exact ⟨h1, fun _ => h2, h3⟩
      · rintro ⟨h1, h2, h3⟩
        exact ⟨⟨h1, h2 h⟩, h3⟩
    · rw [if_neg (by simpa using h)]
      simp only [List.forall_mem_cons]
      constructor
      · rintro ⟨h1, h2⟩
        exact ⟨h1, fun hc => absurd hc h, h2⟩
      · rintro ⟨h1, _, h2⟩
        exact ⟨h1, h2⟩

theorem mem_filterArgsLoop (args : List String) :
    ∀ (kvs : KVMap) (x : String × String),
      x ∈ filterArgsLoop kvs args ↔
        x ∈ kvs ∧ ∀ a ∈ args, matchesPattern x.1 a = false := by
  induction args with
  | nil => simp [filterArgsLoop]
  | cons a rest ih =>
    intro kvs x
    rw [filterArgsLoop, ih]
    simp only [List.mem_filter, List.forall_mem_cons, Bool.not_eq_true']
    tauto

theorem mem_applyFilterDirectives (dirs : List Directive) :
    ∀ (kvs : KVMap) (x : String × String),
      x ∈ applyFilterDirectives kvs dirs ↔
        x ∈ kvs ∧
          ∀ d ∈ dirs, lowerStr d.name = "filter" →
            ∀ a ∈ d.arguments, matchesPattern x.1 a = false := by
  induction dirs with
  | nil => simp [applyFilterDirectives]
  | cons d rest ih =>
    intro kvs x
    rw [applyFilterDirectives, ih]
    by_cases h : lowerStr d.name = "filter"
    · rw [if_pos (show (lowerStr d.name == "filter") = true from beq_iff_eq.mpr h)]
      rw [applyFilterDirective, mem_filterArgsLoop]
      simp only [List.forall_mem_cons]
      constructor
      · rintro ⟨⟨h1, h2⟩, h3⟩
        exact ⟨h1, fun _ => h2, h3⟩
      · rintro ⟨h1, h2, h3⟩
        exact ⟨⟨h1, h2 h⟩, h3⟩
    · rw [if_neg (by simpa using h)]
      simp only [List.forall_mem_cons]
      constructor
      · rintro ⟨h1, h2⟩
        exact ⟨h1, fun hc => absurd hc h, h2⟩
      · rintro ⟨h1, _, h2⟩
        exact ⟨h1, h2⟩

theorem mem_applyFilterUnlessDirectives (kvs : KVMap) (dirs : List Directive)
    (x : String × String) :
    x ∈ applyFilterUnlessDirectives kvs dirs ↔
      x ∈ kvs ∧
        (collectFilterUnlessPatterns dirs = [] ∨
          (collectFilterUnlessPatterns dirs).any
            (fun p => matchesPattern x.1 p) = true) := by
  unfold applyFilterUnlessDirectives
  by_cases h : (collectFilterUnlessPatterns dirs).isEmpty
  · rw [if_pos h]
    simp [List.isEmpty_iff.mp h]
  · rw [if_neg h]
    rw [List.mem_filter]
    have hne : collectFilterUnlessPatterns dirs ≠ [] := by
      intro hc
      exact h (by simp [hc])
    constructor
    · rintro ⟨h1, h2⟩
      refine ⟨h1, Or.inr ?_⟩
      have := List.elem_iff.mp h2
      rcases List.mem_filter.mp this with ⟨_, hp⟩
      exact hp
    · rintro ⟨h1, h2⟩
      rcases h2 with h2 | h2
      · exact absurd h2 hne
      · refine ⟨h1, List.elem_iff.mpr ?_⟩
        rw [List.mem_filter]
        exact ⟨List.mem_map.mpr ⟨x, h1, rfl⟩, h2⟩

/-! ### The require stage as a first-missing-key search -/

theorem requireArgsCheck_eq_find (kvs : KVMap) (args : List String) :
    requireArgsCheck kvs args =
      match args.find? (fun a => (mapGet kvs a).isNone) with
      | some a => .error (requireErrorText a)
      | none => .ok () := by
  induction args with
  | nil => rfl
  | cons a rest ih =>
    rw [requireArgsCheck, List.find?_cons]
    by_cases h : (mapGet kvs a).isSome
    · have hn : (mapGet kvs a).isNone = false := by
        rcases Option.isSome_iff_exists.mp h with ⟨v, hv⟩
        simp [hv]
      rw [if_pos h, hn, ih]
    · have hn : (mapGet kvs a).isNone = true := by
        cases hm : mapGet kvs a
        · rfl
        · exact absurd (by simp [hm]) h
      rw [if_neg h, hn]
      rfl

theorem applyRequireDirectives_eq_firstMissing (kvs : KVMap)
    (dirs : List Directive) :
    applyRequireDirectives kvs dirs =
      match firstMissingRequiredKey kvs dirs with
      | some a => .error (requireErrorText a)
      | none => .ok () := by
  induction dirs with
  | nil => rfl
  | cons d rest ih =>
    rw [applyRequireDirectives, firstMissingRequiredKey]
    by_cases h : (lowerStr d.name == "require") = true
    · rw [if_pos h, if_pos h, applyRequireDirective, requireArgsCheck_eq_find]
      cases d.arguments.find? (fun a => (mapGet kvs a).isNone)
      · exact ih
      · rfl
    · rw [if_neg h, if_neg h]
      exact ih

/-! ### Validity of keys produced by the parser -/

theorem parsePassTwo_valid (tbl : KVMap) (filePath : String) :
    ∀ (lines : List String) (e : EnvVar),
      e ∈ parsePassTwo tbl filePath lines → isValidKey e.key = true := by
  intro lines
  induction lines with
  | nil => intro e he; simp [parsePassTwo] at he
  | cons raw rest ih =>
    intro e he
    rw [parsePassTwo] at he
    simp only [] at he
    split at he
    · exact ih e he
    · split at he
      · exact ih e he
      · split at he
        · exact ih e he
        · split at he
          · split at he
            · rcases List.mem_cons.mp he with h | h
              · rename_i hvalid
                rw [h]
                exact (Bool.and_eq_true _ _ |>.mp hvalid).2
              · exact ih e h
            · exact ih e he
          · exact ih e he

theorem parsePassOne_valid :
    ∀ (lines : List String) (vars : KVMap) (dirs : List Directive) (n : Nat)
      (res : KVMap × List Directive),
      (∀ kv ∈ vars, isValidKey kv.1 = true) →
      parsePassOne vars dirs lines n = .ok res →
      ∀ kv ∈ res.1, isValidKey kv.1 = true := by
  intro lines
  induction lines with
  | nil =>
    intro vars dirs n res hvars hok
    rw [parsePassOne] at hok
    cases hok
    exact hvars
  | cons raw rest ih =>
    intro vars dirs n res hvars hok
    rw [parsePassOne] at hok
    simp only [] at hok
    split at hok
    · exact ih _ _ _ _ hvars hok
    · split at hok
      · split at hok
        · cases hok
        · exact ih _ _ _ _ hvars hok
      · split at hok
        · exact ih _ _ _ _ hvars hok
        · split at hok
          · split at hok
            · refine ih _ _ _ _ ?_ hok
              intro kv hkv
              rcases mem_mapSet _ _ _ _ hkv with h | h
              · rename_i hvalid
                rw [h]
                exact (Bool.and_eq_true _ _ |>.mp hvalid).2
              · exact hvars kv h
            · exact ih _ _ _ _ hvars hok
          · exact ih _ _ _ _ hvars hok

/-! ### Reference resolution lemmas -/

theorem dropWhile_length_le (p : Char → Bool) (l : List Char) :
    (l.dropWhile p).length ≤ l.length := by
  induction l with
  | nil => simp
  | cons c rest ih =>
    rw [List.dropWhile_cons]
    split
    · exact Nat.le_trans ih (Nat.le_succ _)
    · exact Nat.le_refl _

theorem refSpan_length :
    ∀ (rest name tail : List Char), refSpan rest = some (name, tail) →
      tail.length < rest.length := by
  intro rest name tail h
  cases rest with
  | nil => simp [refSpan] at h
  | cons c rest2 =>
    rw [refSpan] at h
    by_cases hc : (c == '\x7b') = true
    · rw [if_pos hc] at h
      simp only [] at h
      cases hdw : rest2.dropWhile (fun d => d != '\x7d') with
      | nil => rw [hdw] at h; simp at h
      | cons c3 rest3 =>
        rw [hdw] at h
        simp only [] at h
        split at h
        · have h2 : rest3 = tail := by
            have := (Option.some.inj h)
            exact congrArg Prod.snd this
          subst h2
          have hlen := dropWhile_length_le (fun d => d != '\x7d') rest2
          rw [hdw] at hlen
          simp only [List.length_cons] at hlen ⊢
          omega
        · simp at h
    · rw [if_neg hc] at h
      simp at h

theorem resolveGo_congr (tbl : KVMap) :
    ∀ (f g : Nat) (s : List Char), s.length < f → s.length < g →
      resolveGo tbl f s = resolveGo tbl g s := by
  intro f
  induction f with
  | zero => intro g s hf _; exact absurd hf (Nat.not_lt_zero _)
  | succ f ih =>
    intro g s hf hg
    cases g with
    | zero => exact absurd hg (Nat.not_lt_zero _)
    | succ g =>
      cases s with
      | nil => rfl
      | cons c rest =>
        have hrf : rest.length < f := by
          simp only [List.length_cons] at hf; omega
        have hrg : rest.length < g := by
          simp only [List.length_cons] at hg; omega
        rw [resolveGo, resolveGo]
        by_cases hc : (c == '$') = true
        · rw [if_pos hc, if_pos hc]
          cases hrs : refSpan rest with
          | none =>
            show c :: resolveGo tbl f rest = c :: resolveGo tbl g rest
            rw [ih g rest hrf hrg]
          | some p =>
            obtain ⟨name, tail⟩ := p
            have hlen := refSpan_length rest name tail hrs
            show (match mapGet tbl ⟨name⟩ with
                | some v => v.data
                | none => '$' :: '\x7b' :: name ++ ['\x7d']) ++ resolveGo tbl f tail =
              (match mapGet tbl ⟨name⟩ with
                | some v => v.data
                | none => '$' :: '\x7b' :: name ++ ['\x7d']) ++ resolveGo tbl g tail
            rw [ih g tail (by omega) (by omega)]
        · rw [if_neg hc, if_neg hc, ih g rest hrf hrg]

theorem takeWhile_wrapped (tail : List Char) :
    ∀ (name : List Char), (∀ c ∈ name, (c != '\x7d') = true) →
      (name ++ '\x7d' :: tail).takeWhile (fun d => d != '\x7d') = name := by
  intro name
  induction name with
  | nil => intro _; simp [List.takeWhile_cons]
  | cons a na ih =>
    intro h
    rw [List.cons_append, List.takeWhile_cons, if_pos (h a (List.mem_cons_self _ _)),
      ih (fun c hc => h c (List.mem_cons_of_mem _ hc))]

theorem dropWhile_wrapped (tail : List Char) :
    ∀ (name : List Char), (∀ c ∈ name, (c != '\x7d') = true) →
      (name ++ '\x7d' :: tail).dropWhile (fun d => d != '\x7d') = '\x7d' :: tail := by
  intro name
  induction name with
  | nil => intro _; simp [List.dropWhile_cons]
  | cons a na ih =>
    intro h
    rw [List.cons_append, List.dropWhile_cons, if_pos (h a (List.mem_cons_self _ _)),
      ih (fun c hc => h c (List.mem_cons_of_mem _ hc))]

theorem refSpan_wrapped (name tail : List Char) (hne : name ≠ [])
    (h : ∀ c ∈ name, (c != '\x7d') = true) :
    refSpan ('\x7b' :: (name ++ '\x7d' :: tail)) = some (name, tail) := by
  rw [refSpan]
  simp only [beq_self_eq_true, if_pos]
  rw [takeWhile_wrapped tail name h, dropWhile_wrapped tail name h]
  simp [hne]

theorem data_wrapped (name rest : String) :
    ("$\x7b" ++ name ++ "\x7d" ++ rest).data =
      '$' :: '\x7b' :: (name.data ++ '\x7d' :: rest.data) := by
  simp only [String.data_append]
  show ['$', '\x7b'] ++ name.data ++ ['\x7d'] ++ rest.data = _
  simp

theorem resolveGo_hit_step (tbl : KVMap) (nm tail : List Char) (f : Nat)
    (v : String) (hne : nm ≠ []) (h2 : ∀ c ∈ nm, (c != '\x7d') = true)
    (h3 : mapGet tbl ⟨nm⟩ = some v) :
    resolveGo tbl (f + 1) ('$' :: '\x7b' :: (nm ++ '\x7d' :: tail)) =
      v.data ++ resolveGo tbl f tail := by
  rw [resolveGo]
  rw [if_pos (show (('$' : Char) == '$') = true from rfl)]
  rw [refSpan_wrapped nm tail hne h2]
  show (match mapGet tbl ⟨nm⟩ with
      | some w => w.data
      | none => '$' :: '\x7b' :: nm ++ ['\x7d']) ++ resolveGo tbl f tail = _
  rw [h3]

theorem resolveGo_miss_step (tbl : KVMap) (nm tail : List Char) (f : Nat)
    (hne : nm ≠ []) (h2 : ∀ c ∈ nm, (c != '\x7d') = true)
    (h3 : mapGet tbl ⟨nm⟩ = none) :
    resolveGo tbl (f + 1) ('$' :: '\x7b' :: (nm ++ '\x7d' :: tail)) =
      ('$' :: '\x7b' :: nm ++ ['\x7d']) ++ resolveGo tbl f tail := by
  rw [resolveGo]
  rw [if_pos (show (('$' : Char) == '$') = true from rfl)]
  rw [refSpan_wrapped nm tail hne h2]
  show (match mapGet tbl ⟨nm⟩ with
      | some w => w.data
      | none => '$' :: '\x7b' :: nm ++ ['\x7d']) ++ resolveGo tbl f tail = _
  rw [h3]

theorem resolve_hit (tbl : KVMap) (name rest v : String)
    (h1 : ¬ name = "") (h2 : ∀ c ∈ name.data, (c != '\x7d') = true)
    (h3 : mapGet tbl name = some v) :
    resolveVariableReferences ("$\x7b" ++ name ++ "\x7d" ++ rest) tbl =
      v ++ resolveVariableReferences rest tbl := by
  have hne : name.data ≠ [] := fun hc => h1 (String.ext (by rw [hc]))
  apply String.ext
  show resolveGo tbl (("$\x7b" ++ name ++ "\x7d" ++ rest).data.length + 1)
      ("$\x7b" ++ name ++ "\x7d" ++ rest).data = (v ++ resolveVariableReferences rest tbl).data
  rw [data_wrapped, resolveGo_hit_step tbl name.data rest.data _ v hne h2 h3,
    String.data_append]
  show _ = v.data ++ resolveGo tbl (rest.data.length + 1) rest.data
  congr 1
  apply resolveGo_congr
  · simp only [List.length_cons, List.length_append]
    omega
  · omega

theorem resolve_miss (tbl : KVMap) (name rest : String)
    (h1 : ¬ name = "") (h2 : ∀ c ∈ name.data, (c != '\x7d') = true)
    (h3 : mapGet tbl name = none) :
    resolveVariableReferences ("$\x7b" ++ name ++ "\x7d" ++ rest) tbl =
      "$\x7b" ++ name ++ "\x7d" ++ resolveVariableReferences rest tbl := by
  have hne : name.data ≠ [] := fun hc => h1 (String.ext (by rw [hc]))
  apply String.ext
  show resolveGo tbl (("$\x7b" ++ name ++ "\x7d" ++ rest).data.length + 1)
      ("$\x7b" ++ name ++ "\x7d" ++ rest).data =
    ("$\x7b" ++ name ++ "\x7d" ++ resolveVariableReferences rest tbl).data
  rw [data_wrapped, resolveGo_miss_step tbl name.data rest.data _ hne h2 h3,
    data_wrapped name (resolveVariableReferences rest tbl)]
  show ('$' :: '\x7b' :: name.data ++ ['\x7d']) ++ _ = _
  have : resolveGo tbl
        (('$' :: '\x7b' :: (name.data ++ '\x7d' :: rest.data)).length) rest.data =
      resolveGo tbl (rest.data.length + 1) rest.data := by
    apply resolveGo_congr
    · simp only [List.length_cons, List.length_append]
      omega
    · omega
  rw [this]
  show _ = '$' :: '\x7b' :: (name.data ++ '\x7d' ::
    resolveGo tbl (rest.data.length + 1) rest.data)
  simp

/-! ### Quote trimming and pattern matching lemmas -/

theorem head_dropWhile_not (p : Char → Bool) :
    ∀ (l : List Char) (x : Char) (tail : List Char),
      l.dropWhile p = x :: tail → p x = false := by
  intro l
  induction l with
  | nil => intro x tail h; simp at h
  | cons c rest ih =>
    intro x tail h
    rw [List.dropWhile_cons] at h
    split at h
    · exact ih x tail h
    · rename_i hc
      injection h with h1 _
      subst h1
      cases hpc : p c
      · rfl
      · exact absurd hpc hc

theorem trimCharBoth_getLast (c : Char) (l : List Char) :
    ∀ x, (trimCharBoth c l).getLast? = some x → (x == c) = false := by
  intro x hx
  unfold trimCharBoth at hx
  rw [List.getLast?_reverse] at hx
  cases hd : (l.dropWhile (fun d => d == c)).reverse.dropWhile (fun d => d == c) with
  | nil => rw [hd] at hx; simp at hx
  | cons z zs =>
    rw [hd] at hx
    simp only [List.head?_cons, Option.some.injEq] at hx
    subst hx
    exact head_dropWhile_not _ _ z zs hd

theorem trimCharBoth_head (c : Char) (l : List Char) :
    ∀ x, (trimCharBoth c l).head? = some x → (x == c) = false := by
  intro x hx
  unfold trimCharBoth at hx
  rw [List.head?_reverse] at hx
  cases hdw : (l.dropWhile (fun d => d == c)).reverse.dropWhile (fun d => d == c) with
  | nil => rw [hdw] at hx; simp at hx
  | cons y ys =>
    rw [hdw] at hx
    have h2 : (y :: ys : List Char).getLast? =
        ((l.dropWhile (fun d => d == c)).reverse).getLast? := by
      conv_rhs =>
        rw [← List.takeWhile_append_dropWhile (fun d => d == c)
          (l.dropWhile (fun d => d == c)).reverse]
      rw [hdw]
      exact (List.getLast?_append_of_ne_nil _ (by simp)).symm
    rw [h2, List.getLast?_reverse] at hx
    cases hd : l.dropWhile (fun d => d == c) with
    | nil => rw [hd] at hx; simp at hx
    | cons z zs =>
      rw [hd] at hx
      simp only [List.head?_cons, Option.some.injEq] at hx
      subst hx
      exact head_dropWhile_not _ l z zs hd

theorem merge_unfold (existingKVs : KVMap) (filePath : String)
    (lines : List String) (envFile : EnvFile)
    (hp : parseEnvFile filePath lines = .ok envFile) :
    ProcessFileWithMerge existingKVs filePath lines =
      match applyRequireDirectives (preRequireMap existingKVs envFile)
          envFile.directives with
      | .error e => .error e
      | .ok _ => .ok (preRequireMap existingKVs envFile) := by
  unfold ProcessFileWithMerge
  rw [hp]
  rfl

/-! ### Claim theorems -/

/-- C1: `ProcessFileWithMerge` applies the stages in the fixed order
    apply-remove on the existing mapping, overlay of the file's parsed
    variables (file values winning), apply-filter, apply-filter-unless,
    apply-require (first conjunct: it agrees with the spec's staged
    orchestrator on every parsed file); on existing `{EXISTING_KEY1: v1,
    EXISTING_KEY2: v2, OTHER_KEY: ov}` and the file `#require EXISTING_KEY1`
    / `#remove EXISTING_KEY2` / `KEY1=value1` the result is exactly
    `{EXISTING_KEY1: v1, OTHER_KEY: ov, KEY1: value1}` with no error.  The
    last three conjuncts pin observable consequences of the stage order:
    remove precedes the overlay (a key removed and assigned in the same
    file survives), filter follows the overlay (it deletes the file's own
    variables), and require runs last (it sees the filtered result). -/
theorem claim1_merge_pipeline :
    (∀ (existingKVs : KVMap) (filePath : String) (lines : List String)
        (envFile : EnvFile), parseEnvFile filePath lines = .ok envFile →
        ProcessFileWithMerge existingKVs filePath lines =
          stagedMerge existingKVs envFile) ∧
    ProcessFileWithMerge
        [("EXISTING_KEY1", "v1"), ("EXISTING_KEY2", "v2"), ("OTHER_KEY", "ov")]
        "f" ["#require EXISTING_KEY1", "#remove EXISTING_KEY2", "KEY1=value1"] =
      .ok [("EXISTING_KEY1", "v1"), ("OTHER_KEY", "ov"), ("KEY1", "value1")] ∧
    ProcessFileWithMerge [] "f" ["#remove KEY1", "KEY1=v"] = .ok [("KEY1", "v")] ∧
    ProcessFileWithMerge [] "f" ["#filter KEY1", "KEY1=v"] = .ok [] ∧
    ProcessFileWithMerge [] "f" ["#require KEY1", "#filter KEY1", "KEY1=v"] =
      .error (requireErrorText "KEY1") := by
  refine ⟨?_, rfl, rfl, rfl, rfl⟩
  intro existingKVs filePath lines envFile h
  unfold ProcessFileWithMerge stagedMerge
  rw [h]

/-- Witness for C1's staged-orchestrator conjunct at a concrete file. -/
theorem claim1_merge_pipeline_witness :
    ProcessFileWithMerge [] "f" ["KEY1=value1"] =
      stagedMerge [] ⟨"f", [⟨"KEY1", "value1", "f"⟩], []⟩ :=
  claim1_merge_pipeline.1 [] "f" ["KEY1=value1"]
    ⟨"f", [⟨"KEY1", "value1", "f"⟩], []⟩ rfl

/-- C2: the require stage uses case-sensitive exact key lookup (unlike
    remove/filter): `applyRequireDirectives` errors exactly on the first
    missing argument in directive-then-argument order with the text
    `required environment variable '<argument>' not found`, the merge then
    returns that error and no mapping, and `{EXISTING_KEY: v}` with
    `#require existing_key` fails with the message for `existing_key`. -/
theorem claim2_require_case_sensitive :
    (∀ (kvs : KVMap) (dirs : List Directive),
        applyRequireDirectives kvs dirs =
          match firstMissingRequiredKey kvs dirs with
          | some a => .error (requireErrorText a)
          | none => .ok ()) ∧
    (∀ (existingKVs : KVMap) (filePath : String) (lines : List String)
        (envFile : EnvFile) (a : String),
        parseEnvFile filePath lines = .ok envFile →
        firstMissingRequiredKey (preRequireMap existingKVs envFile)
            envFile.directives = some a →
        ProcessFileWithMerge existingKVs filePath lines =
          .error (requireErrorText a)) ∧
    ProcessFileWithMerge [("EXISTING_KEY", "v")] "f" ["#require existing_key"] =
      .error "required environment variable 'existing_key' not found" := by
  refine ⟨applyRequireDirectives_eq_firstMissing, ?_, rfl⟩
  intro existingKVs filePath lines envFile a hp hm
  rw [merge_unfold existingKVs filePath lines envFile hp,
    applyRequireDirectives_eq_firstMissing, hm]

/-- Witness for C2 at the concrete require failure. -/
theorem claim2_require_case_sensitive_witness :
    ProcessFileWithMerge [("EXISTING_KEY", "v")] "f" ["#require existing_key"] =
      .error (requireErrorText "existing_key") :=
  claim2_require_case_sensitive.2.1 [("EXISTING_KEY", "v")] "f"
    ["#require existing_key"] ⟨"f", [], [⟨"require", ["existing_key"], 1⟩]⟩
    "existing_key" rfl rfl

/-- C3 counterexample: an invalid key in the caller-supplied existing
    mapping survives the merge of an empty file, so the claim that a key
    failing the regex never appears in the output regardless of its origin
    is false as stated. -/
theorem claim3_counterexample :
    ProcessFileWithMerge [("1BAD", "v")] "f" [] = .ok [("1BAD", "v")] ∧
    isValidKey "1BAD" = false :=
  ⟨rfl, rfl⟩

/-- C3 (amended): every key of the merged mapping either matches the key
    regex or was already a key of the existing mapping passed in by the
    caller — keys contributed by the file always match the regex; only the
    caller's own invalid keys can survive. -/
theorem claim3_output_keys_valid :
    ∀ (existingKVs : KVMap) (filePath : String) (lines : List String)
      (m : KVMap) (k v : String),
      ProcessFileWithMerge existingKVs filePath lines = .ok m →
      (k, v) ∈ m →
      isValidKey k = true ∨ k ∈ existingKVs.map Prod.fst := by
  intro ex fp lines m k v hok hmem
  cases hp : parseEnvFile fp lines with
  | error e =>
    unfold ProcessFileWithMerge at hok
    rw [hp] at hok
    cases hok
  | ok ef =>
    rw [merge_unfold ex fp lines ef hp] at hok
    cases hr : applyRequireDirectives (preRequireMap ex ef) ef.directives with
    | error e => rw [hr] at hok; cases hok
    | ok u =>
      rw [hr] at hok
      have hm : preRequireMap ex ef = m := by
        cases hok
        rfl
      rw [← hm] at hmem
      unfold preRequireMap at hmem
      rcases (mem_applyFilterUnlessDirectives _ _ _).mp hmem with ⟨h1, _⟩
      rcases (mem_applyFilterDirectives _ _ _).mp h1 with ⟨h2, _⟩
      rcases mem_foldl_mapSet _ _ _ h2 with h3 | h3
      · obtain ⟨w, hw, hk⟩ := h3
        left
        unfold parseEnvFile at hp
        cases hp1 : parsePassOne [] [] lines 0 with
        | error e => rw [hp1] at hp; cases hp
        | ok pr =>
          obtain ⟨tbl, dirs⟩ := pr
          rw [hp1] at hp
          cases hp
          rw [show k = w.key from hk]
          exact parsePassTwo_valid tbl fp lines w hw
      · right
        rcases (mem_applyRemoveDirectives _ _ _).mp h3 with ⟨h4, _⟩
        exact List.mem_map.mpr ⟨(k, v), h4, rfl⟩

/-- Witness for C3 (amended) at a concrete merge. -/
theorem claim3_output_keys_valid_witness :
    isValidKey "B" = true ∨ "B" ∈ ([("A", "1")] : KVMap).map Prod.fst :=
  claim3_output_keys_valid [("A", "1")] "f" ["B=2"] [("A", "1"), ("B", "2")]
    "B" "2" rfl (by simp)

/-- C4 counterexample: pass 1 of `parseEnvFile` DOES filter assignments
    through the key validity regex, so `1BAD=hello` never reaches the
    reference table and `GOOD=${1BAD}` is emitted with the literal text
    `${1BAD}`, not `hello`. -/
theorem claim4_counterexample :
    parseEnvFile "f" ["1BAD=hello", "GOOD=$\x7b1BAD\x7d"] =
      .ok ⟨"f", [⟨"GOOD", "$\x7b1BAD\x7d", "f"⟩], []⟩ ∧
    ¬ (("$\x7b1BAD\x7d" : String) = "hello") :=
  ⟨rfl, by decide⟩

/-- C4 (amended): pass 1 of `parseEnvFile` applies the same key validity
    check as pass 2, so an assignment feeds the same-file reference table
    only when its key matches the regex, and every key of the pass-one
    table is valid. -/
theorem claim4_pass_one_filters_keys :
    ∀ (lines : List String) (n : Nat) (res : KVMap × List Directive),
      parsePassOne [] [] lines n = .ok res →
      ∀ kv ∈ res.1, isValidKey kv.1 = true := by
  intro lines n res h
  exact parsePassOne_valid lines [] [] n res (by intro kv hkv; simp at hkv) h

/-- Witness for C4 (amended) at a concrete file. -/
theorem claim4_pass_one_filters_keys_witness : isValidKey "A" = true :=
  claim4_pass_one_filters_keys ["A=1"] 0 ([("A", "1")], []) rfl ("A", "1")
    (by simp)

/-- C5: filter-unless collects the union of all argument patterns of all
    `filter-unless` directives; an entry survives iff the union is empty
    (pass-through) or its key matches at least one collected pattern; the
    patterns `TEST_* *_PROD` retain exactly the four matching keys and drop
    `REGULAR_KEY`. -/
theorem claim5_filter_unless :
    (∀ (kvs : KVMap) (dirs : List Directive) (k v : String),
        (k, v) ∈ applyFilterUnlessDirectives kvs dirs ↔
          (k, v) ∈ kvs ∧
            (collectFilterUnlessPatterns dirs = [] ∨
              (collectFilterUnlessPatterns dirs).any
                (fun p => matchesPattern k p) = true)) ∧
    applyFilterUnlessDirectives
        [("TEST_KEY1", "a"), ("TEST_KEY2", "b"), ("KEY_PROD", "c"),
          ("OTHER_PROD", "d"), ("REGULAR_KEY", "e")]
        [⟨"filter-unless", ["TEST_*", "*_PROD"], 1⟩] =
      [("TEST_KEY1", "a"), ("TEST_KEY2", "b"), ("KEY_PROD", "c"),
        ("OTHER_PROD", "d")] :=
  ⟨fun kvs dirs k v => mem_applyFilterUnlessDirectives kvs dirs (k, v), rfl⟩

/-- C6: remove is case-insensitive and total — an entry survives the remove
    stage iff its key case-insensitively equals no argument of any `remove`
    directive (absent arguments cause no error; deletions across directives
    and arguments accumulate as a union); `#remove KEY1 KEY2` equals
    `#remove KEY1` followed by `#remove KEY2`; `{EXISTING_KEY: v}` merged
    with `#remove existing_key` omits `EXISTING_KEY`. -/
theorem claim6_remove_case_insensitive :
    (∀ (kvs : KVMap) (dirs : List Directive) (k v : String),
        (k, v) ∈ applyRemoveDirectives kvs dirs ↔
          (k, v) ∈ kvs ∧
            ∀ d ∈ dirs, lowerStr d.name = "remove" →
              ∀ a ∈ d.arguments, eqFold k a = false) ∧
    (∀ (kvs : KVMap) (a b : String) (i j : Nat),
        applyRemoveDirectives kvs [⟨"remove", [a, b], i⟩] =
          applyRemoveDirectives kvs [⟨"remove", [a], i⟩, ⟨"remove", [b], j⟩]) ∧
    ProcessFileWithMerge [("EXISTING_KEY", "v")] "f" ["#remove existing_key"] =
      .ok [] :=
  ⟨fun kvs dirs k v => mem_applyRemoveDirectives dirs kvs (k, v),
    fun _ _ _ _ _ => rfl, rfl⟩

/-- C7: reference resolution replaces, left to right in a single pass, each
    span `${NAME}` (NAME non-empty, containing no `}`) by the table value
    when NAME is present and leaves the literal text otherwise; substituted
    text is emitted verbatim before the resolved remainder (never
    re-scanned: the value `${B}` read from the table stays literal), and a
    name defined only in a previously merged file, not in the current
    file's table, stays literal. -/
theorem claim7_resolve_references :
    (∀ (tbl : KVMap) (name rest v : String),
        ¬ name = "" → (∀ c ∈ name.data, (c != '\x7d') = true) →
        mapGet tbl name = some v →
        resolveVariableReferences ("$\x7b" ++ name ++ "\x7d" ++ rest) tbl =
          v ++ resolveVariableReferences rest tbl) ∧
    (∀ (tbl : KVMap) (name rest : String),
        ¬ name = "" → (∀ c ∈ name.data, (c != '\x7d') = true) →
        mapGet tbl name = none →
        resolveVariableReferences ("$\x7b" ++ name ++ "\x7d" ++ rest) tbl =
          "$\x7b" ++ name ++ "\x7d" ++ resolveVariableReferences rest tbl) ∧
    resolveVariableReferences "$\x7bA\x7d" [("A", "$\x7bB\x7d"), ("B", "x")] = "$\x7bB\x7d" ∧
    ProcessFileWithMerge [("B", "x")] "f" ["C=$\x7bB\x7d"] =
      .ok [("B", "x"), ("C", "$\x7bB\x7d")] :=
  ⟨resolve_hit, resolve_miss, rfl, rfl⟩

/-- Witness for C7's substitution equation at a concrete span. -/
theorem claim7_resolve_references_witness :
    resolveVariableReferences ("$\x7b" ++ "A" ++ "\x7d" ++ "") [("A", "x")] =
      "x" ++ resolveVariableReferences "" [("A", "x")] :=
  claim7_resolve_references.1 [("A", "x")] "A" "" "x" (by decide) (by decide)
    rfl

/-- C8 counterexample: `strings.Trim` removes ALL leading and trailing
    quote characters, not exactly one pair, so `""x""` unquotes to `x`
    rather than the claimed `"x"`. -/
theorem claim8_counterexample :
    unquoteValue "\"\"x\"\"" = "x" ∧ ¬ (("x" : String) = "\"x\"") :=
  ⟨rfl, by decide⟩

/-- C8 (amended): for a trimmed value wrapped in double quotes, unquote
    strips ALL leading and trailing double quotes (`strings.Trim`) and
    unescapes `\"` — the trimmed text neither starts nor ends with the
    quote character; a value that is a single quote character yields the
    empty string; escaped quotes inside are unescaped. -/
theorem claim8_unquote_trims_all :
    (∀ (c : Char) (l : List Char),
        ¬ (trimCharBoth c l).head? = some c ∧
        ¬ (trimCharBoth c l).getLast? = some c) ∧
    (∀ v : String,
        strStarts (trimSpace v) "\"" = true →
        strEnds (trimSpace v) "\"" = true →
        strStarts (trimSpace v) squoteStr = false →
        unquoteValue v =
          ⟨replaceEscaped dquote (trimCharBoth dquote (trimSpace v).data)⟩) ∧
    unquoteValue "\"\"x\"\"" = "x" ∧
    unquoteValue "\"" = "" ∧ unquoteValue squoteStr = "" ∧
    unquoteValue "\"a\\\"b\"" = "a\"b" := by
  refine ⟨?_, ?_, rfl, rfl, rfl, rfl⟩
  · intro c l
    constructor
    · intro h
      have := trimCharBoth_head c l c h
      simp at this
    · intro h
      have := trimCharBoth_getLast c l c h
      simp at this
  · intro v h1 h2 h3
    unfold unquoteValue
    rw [if_neg (by simp [h3]), if_pos (by rw [h1, h2]; rfl)]

/-- Witness for C8's double-quote branch at a concrete value. -/
theorem claim8_unquote_trims_all_witness :
    unquoteValue "\"abc\"" =
      ⟨replaceEscaped dquote (trimCharBoth dquote (trimSpace "\"abc\"").data)⟩ :=
  claim8_unquote_trims_all.2.1 "\"abc\"" rfl rfl rfl

/-- C10: the same-file reference table is completed in pass 1 before any
    value is resolved, so a forward reference resolves (`A=${B}` with `B=x`
    on a later line emits `A = x`), and the table stores unquoted but
    unresolved text, so `C=${A}` emits the value `${B}`, not `x`. -/
theorem claim10_two_pass_table :
    parseEnvFile "f" ["A=$\x7bB\x7d", "B=x", "C=$\x7bA\x7d"] =
      .ok ⟨"f", [⟨"A", "x", "f"⟩, ⟨"B", "x", "f"⟩, ⟨"C", "$\x7bB\x7d", "f"⟩], []⟩ ∧
    ¬ (("$\x7bB\x7d" : String) = "x") :=
  ⟨rfl, by decide⟩

end EnvVars
